import Mathlib

/-!
Shallow embedding of the reference-resolution core of the
`wappler-cleanup-tool` repository (src/lib/scanner.js) together with its
empty-folder module (src/unnamed/part_001, class `EmptyFolderDetector`).

Strings are modelled as `List Char` (JavaScript strings), with `String`
wrappers named after the source functions.  JavaScript `String.replace`
with a string pattern replaces the FIRST occurrence only; `Map` keeps
insertion order and `Map.set` on an existing key overwrites the value in
place; `Array.sort` is a stable sort.  All of these are modelled exactly.
-/

namespace Wappler

/-- The apostrophe character (kept out of literals). -/
def sq : Char := Char.ofNat 39

/-- The double-quote character (kept out of literals). -/
def dq : Char := Char.ofNat 34

/-- The backtick character (kept out of literals). -/
def bq : Char := Char.ofNat 96

/-- JavaScript `String.startsWith`, on char lists: `listStartsWith pat s`
is true when `pat` is a prefix of `s`. -/
def listStartsWith : List Char → List Char → Bool
  | [], _ => true
  | _ :: _, [] => false
  | p :: ps, c :: cs => p == c && listStartsWith ps cs

/-- JavaScript `String.endsWith`, on char lists. -/
def listEndsWith (pat s : List Char) : Bool :=
  listStartsWith pat.reverse s.reverse

/-- JavaScript `String.replace(pat, rep)` with a string pattern: replaces
the FIRST occurrence of `pat` (scanning left to right); if `pat` does not
occur, the string is returned unchanged. -/
def replaceFirstFrom (pat rep : List Char) : List Char → List Char
  | [] => []
  | c :: cs =>
    if listStartsWith pat (c :: cs) then rep ++ (c :: cs).drop pat.length
    else c :: replaceFirstFrom pat rep cs

/-- `Scanner.filePathToUrl` (src/lib/scanner.js:73-83), on char lists.
`app/api/v1/x.json ↦ /api/v1/x`; `app/lib/y.json ↦ lib/y`. -/
def filePathToUrlL (filePath : List Char) : List Char :=
  if listStartsWith "app/api/".data filePath then
    '/' :: replaceFirstFrom ".json".data [] (replaceFirstFrom "app/".data [] filePath)
  else if listStartsWith "app/lib/".data filePath then
    replaceFirstFrom ".json".data [] (replaceFirstFrom "app/".data [] filePath)
  else
    replaceFirstFrom ".json".data [] filePath

/-- `Scanner.filePathToUrl` on `String`. -/
def filePathToUrl (filePath : String) : String :=
  ⟨filePathToUrlL filePath.data⟩

/-- The path-normalization part of `Scanner.addReference`
(src/lib/scanner.js:265-283), on char lists.  Rules, first match wins:
leading `/api/` passes through; leading `/app/api/` is rewritten (first
occurrence of the pattern replaced, as JS `replace` does) to `/api/`;
a bare identifier neither starting with `/` nor with `lib/` is prefixed
with `lib/`.  Finally, if the result ends with `.json`, the FIRST
occurrence of `.json` is removed (JS `replace`). -/
def normalizeRefL (referencedPath : List Char) : List Char :=
  let n1 :=
    if listStartsWith "/api/".data referencedPath then referencedPath
    else if listStartsWith "/app/api/".data referencedPath then
      replaceFirstFrom "/app/api/".data "/api/".data referencedPath
    else if !listStartsWith "/".data referencedPath
        && !listStartsWith "lib/".data referencedPath then
      "lib/".data ++ referencedPath
    else referencedPath
  if listEndsWith ".json".data n1 then replaceFirstFrom ".json".data [] n1
  else n1

/-- Path normalization of `Scanner.addReference` on `String`. -/
def normalizeRef (referencedPath : String) : String :=
  ⟨normalizeRefL referencedPath.data⟩

/-- Modelled from the spec: the Path Normalizer as §4.1 of the spec words
it — the same three prefix rules, but with the trailing `.json`
extension stripped (rule 4: "a trailing structured-data extension
(`.json`) is stripped").  Used only to compare the wording of the spec with
the `normalizeRefL` of the code. -/
def specNormalizeTrailingStrip (referencedPath : List Char) : List Char :=
  let n1 :=
    if listStartsWith "/api/".data referencedPath then referencedPath
    else if listStartsWith "/app/api/".data referencedPath then
      replaceFirstFrom "/app/api/".data "/api/".data referencedPath
    else if !listStartsWith "/".data referencedPath
        && !listStartsWith "lib/".data referencedPath then
      "lib/".data ++ referencedPath
    else referencedPath
  if listEndsWith ".json".data n1 then n1.take (n1.length - 5)
  else n1

/-! ## Parsed JSON values and the recursive field walk -/

/-- Parsed JSON values (`fs.readJson` results). -/
inductive Json where
  | null : Json
  | bool : Bool → Json
  | num : Int → Json
  | str : String → Json
  | arr : List Json → Json
  | obj : List (String × Json) → Json
deriving Repr

/-- JavaScript truthiness of a parsed JSON value. -/
def truthy : Json → Bool
  | Json.null => false
  | Json.bool b => b
  | Json.num n => n != 0
  | Json.str s => s != ""
  | Json.arr _ => true
  | Json.obj _ => true

/-- Property access `content.key` on a parsed object (`undefined`,
i.e. `none`, when absent or when the value is not an object). -/
def getField : Json → String → Option Json
  | Json.obj fields, key => fields.lookup key
  | _, _ => none

/-- JavaScript truthiness of a possibly missing property. -/
def truthyOpt : Option Json → Bool
  | none => false
  | some j => truthy j

mutual

/-- `Scanner.findInObject` (src/lib/scanner.js:247-263): recursive walk
over a parsed structure collecting, in traversal order, the values of
every property named `key` (the matched value itself is not recursed
into, exactly as in the source). -/
def findInObject : Json → String → List Json
  | Json.arr items, key => findInArr items key
  | Json.obj fields, key => findInFields fields key
  | _, _ => []

/-- Walk of `findInObject` over the items of an array. -/
def findInArr : List Json → String → List Json
  | [], _ => []
  | j :: rest, key => findInObject j key ++ findInArr rest key

/-- Walk of `findInObject` over the entries of an object. -/
def findInFields : List (String × Json) → String → List Json
  | [], _ => []
  | (k, v) :: rest, key =>
    (if k = key then [v] else findInObject v key) ++ findInFields rest key

end

/-! ## Scanner state, discovery, reference accumulation, analysis -/

/-- One recorded reference (src/lib/scanner.js:286-290). -/
structure Ref where
  sourceFile : String
  type : String
  originalReference : String
deriving Repr, DecidableEq

/-- One entry of `this.serverActions` (src/lib/scanner.js:58-64); the
key (`urlPath`) is kept separately in the association list. -/
structure ActionData where
  filePath : String
  relativePath : String
  content : Json
  references : List Ref
deriving Repr

/-- `this.serverActions`: a JS `Map` modelled as an insertion-ordered
association list with unique keys maintained by `mapSet`. -/
abbrev SAMap := List (String × ActionData)

/-- `Map.has`. -/
def hasKey {α : Type} : List (String × α) → String → Bool
  | [], _ => false
  | e :: rest, k => e.1 == k || hasKey rest k

/-- `Map.get` (first matching key). -/
def mapLookup {α : Type} : List (String × α) → String → Option α
  | [], _ => none
  | e :: rest, k => if e.1 == k then some e.2 else mapLookup rest k

/-- `Map.set`: overwrite in place when the key exists (JS Maps keep the
original insertion position), otherwise append. -/
def mapSet {α : Type} (m : List (String × α)) (k : String) (v : α) :
    List (String × α) :=
  if hasKey m k then m.map (fun e => if e.1 == k then (k, v) else e)
  else m ++ [(k, v)]

/-- One candidate file handed to `discoverServerActions`: its path
relative to the project root and its parse result (`none` = the
`fs.readJson` call threw, i.e. malformed JSON). -/
structure DiscFile where
  relativePath : String
  parsed : Option Json
deriving Repr

/-- The warning line printed for a file that fails to parse
(src/lib/scanner.js:68; the chalk coloring is dropped). -/
def warnOf (f : DiscFile) : Option String :=
  match f.parsed with
  | none => some ("Warning: Could not parse " ++ f.relativePath)
  | some _ => none

/-- One iteration of the `discoverServerActions` loop
(src/lib/scanner.js:50-70): a file that parses and whose content has a
truthy `exec` or `steps` property is registered under its url key; a
file that fails to parse is skipped (the warning is collected
separately by `discoverWarnings`). -/
def discStep (st : SAMap) (f : DiscFile) : SAMap :=
  match f.parsed with
  | none => st
  | some c =>
    if truthyOpt (getField c "exec") || truthyOpt (getField c "steps") then
      mapSet st (filePathToUrl f.relativePath)
        ⟨f.relativePath, f.relativePath, c, []⟩
    else st

/-- `discoverServerActions`: fold of `discStep` over the candidate
files (the `file`/`relativePath` distinction of the source is collapsed
to the relative path). -/
def discoverServerActions (st : SAMap) (files : List DiscFile) : SAMap :=
  files.foldl discStep st

/-- The warnings emitted by `discoverServerActions`, in file order. -/
def discoverWarnings (files : List DiscFile) : List String :=
  files.filterMap warnOf

/-- The whole mutable state of a `Scanner` instance: `serverActions`
and the auxiliary `references` lookup (src/lib/scanner.js:11-12). -/
structure ScannerState where
  serverActions : SAMap
  references : List (String × List Ref)
deriving Repr

/-- A fresh `Scanner` (constructor, src/lib/scanner.js:9-13). -/
def initScanner : ScannerState := ⟨[], []⟩

/-- One call to `addReference` (src/lib/scanner.js:265-302):
the raw path, the source file and the provenance type. -/
structure RefCall where
  referencedPath : String
  sourceFile : String
  type : String
deriving Repr, DecidableEq

/-- The reference record built by `addReference` (the source stores
`path.relative(projectRoot, sourceFile)`; source files are modelled as
already relative). -/
def mkRef (rc : RefCall) : Ref :=
  ⟨rc.sourceFile, rc.type, rc.referencedPath⟩

/-- `addReference`, serverActions component: if the normalized key
names a declared action, push the reference onto its list
(src/lib/scanner.js:285-291). -/
def addRefSA (sa : SAMap) (np : String) (r : Ref) : SAMap :=
  if hasKey sa np then
    sa.map (fun e =>
      if e.1 == np then (e.1, { e.2 with references := e.2.references ++ [r] })
      else e)
  else sa

/-- `addReference`, auxiliary `references` map component: ensure the
key exists, then push (src/lib/scanner.js:293-301). -/
def addRefRefs (refs : List (String × List Ref)) (np : String) (r : Ref) :
    List (String × List Ref) :=
  let refs1 := if hasKey refs np then refs else refs ++ [(np, [])]
  refs1.map (fun e => if e.1 == np then (e.1, e.2 ++ [r]) else e)

/-- `Scanner.addReference` on the scanner state. -/
def addReference (st : ScannerState) (rc : RefCall) : ScannerState :=
  let np := normalizeRef rc.referencedPath
  ⟨addRefSA st.serverActions np (mkRef rc),
   addRefRefs st.references np (mkRef rc)⟩

/-- `summary` of a scan result (src/lib/scanner.js:306-311). -/
structure Summary where
  totalActions : Nat
  used : Nat
  possiblyUnused : Nat
  likelyUnused : Nat
deriving Repr, DecidableEq

/-- One entry of the `actions` array of a scan result
(src/lib/scanner.js:330-338). -/
structure ActionResult where
  urlPath : String
  filePath : String
  status : String
  confidence : String
  referenceCount : Nat
  references : List Ref
  content : Json
deriving Repr

/-- A scan result (`emptyFolders` is attached by `scan` from the
independent empty-folder detector and is not part of `analyzeResults`). -/
structure ScanResults where
  summary : Summary
  actions : List ActionResult
deriving Repr

/-- `confidenceOrder` of the final sort (src/lib/scanner.js:343). -/
def confRank (c : String) : Nat :=
  if c = "safe-to-delete" then 0 else 1

/-- Stable insertion used to model the JS stable `Array.sort` by
`confidenceOrder`: a later element is placed after all earlier elements
of lower-or-equal rank. -/
def insertConf (a : ActionResult) : List ActionResult → List ActionResult
  | [] => [a]
  | b :: l =>
    if confRank b.confidence ≤ confRank a.confidence then b :: insertConf a l
    else a :: b :: l

/-- The stable sort of src/lib/scanner.js:342-345 (JS `Array.sort` is
stable; a stable sort by a total preorder is unique, so insertion sort
computes exactly the JS result). -/
def sortConf (l : List ActionResult) : List ActionResult :=
  l.foldl (fun acc a => insertConf a acc) []

/-- The classification loop of `analyzeResults`
(src/lib/scanner.js:315-339): threads the summary counters and the
`actions` array over the `serverActions` entries in insertion order. -/
def analyzeLoop : Summary × List ActionResult → SAMap → Summary × List ActionResult
  | acc, [] => acc
  | (sum, acts), (url, a) :: rest =>
    let rc := a.references.length
    if rc = 0 then
      analyzeLoop
        ({ sum with likelyUnused := sum.likelyUnused + 1 },
         acts ++ [⟨url, a.relativePath, "unused", "safe-to-delete", rc,
                   a.references, a.content⟩]) rest
    else
      analyzeLoop
        ({ sum with used := sum.used + 1 },
         acts ++ [⟨url, a.relativePath, "used", "review-needed", rc,
                   a.references, a.content⟩]) rest

/-- `Scanner.analyzeResults` (src/lib/scanner.js:304-348). -/
def analyzeResults (sa : SAMap) : ScanResults :=
  let r := analyzeLoop (⟨sa.length, 0, 0, 0⟩, []) sa
  ⟨r.1, sortConf r.2⟩

/-- One whole `scan()` call on a `Scanner` instance
(src/lib/scanner.js:15-42), with the file system abstracted into the
candidate action files (discovery input) and the sequence of
`addReference` calls the three extraction passes produce; both are pure
functions of the unchanged file system, so they are identical across
runs.  Returns the scan result and the instance state it leaves behind. -/
def scanOnce (files : List DiscFile) (refCalls : List RefCall)
    (st : ScannerState) : ScanResults × ScannerState :=
  let st1 : ScannerState := ⟨discoverServerActions st.serverActions files,
                             st.references⟩
  let st2 := refCalls.foldl addReference st1
  (analyzeResults st2.serverActions, st2)

/-! ## The URL-pattern scan (`scanForApiUrlPatterns`)

The two regexes of src/lib/scanner.js:187-214 are embedded through a
small backtracking matcher over token sequences.  Greedy quantifiers
are implemented with the standard consume-first/backtrack order, which
is exactly the JS regex preference order for these patterns.  The
matcher is written with explicit fuel so that it is structural and
kernel-evaluable; the wrappers supply fuel larger than any possible
number of steps, so the fuel never runs out on the inputs used. -/

/-- The character class of the API-path regexes excluding both quote
characters, the question mark, whitespace and the ampersand (`\s` is
restricted to the four standard whitespace characters, the only ones
relevant here). -/
def isB (c : Char) : Bool :=
  !(c == sq || c == dq || c == '?' || c == ' ' || c == '\t' || c == '\n'
    || c == '\r' || c == '&')

/-- The character class excluding the two quote characters. -/
def isA (c : Char) : Bool := !(c == sq || c == dq)

/-- The class of the three quote characters. -/
def isQ (c : Char) : Bool := c == sq || c == dq || c == bq

/-- One token of a regex: a literal, a single class character, a greedy
`*` over a class, or a greedy `+` over a class. -/
inductive Tok where
  | lit : List Char → Tok
  | one : (Char → Bool) → Tok
  | star : (Char → Bool) → Tok
  | plus : (Char → Bool) → Tok

/-- Backtracking matcher: `tmatch fuel ts s` returns the characters the
greedy match of the token sequence `ts` consumes at the head of `s`,
together with the rest, or `none` when `ts` does not match at the head.
Greedy `star`/`plus` try the longer continuation first. -/
def tmatch : Nat → List Tok → List Char → Option (List Char × List Char)
  | 0, _, _ => none
  | _ + 1, [], s => some ([], s)
  | fuel + 1, Tok.lit l :: ts, s =>
    if listStartsWith l s then
      (tmatch fuel ts (s.drop l.length)).map (fun r => (l ++ r.1, r.2))
    else none
  | _ + 1, Tok.one _ :: _, [] => none
  | fuel + 1, Tok.one p :: ts, c :: s =>
    if p c then (tmatch fuel ts s).map (fun r => (c :: r.1, r.2)) else none
  | fuel + 1, Tok.star p :: ts, s =>
    match s with
    | [] => tmatch fuel ts []
    | c :: s2 =>
      if p c then
        match tmatch fuel (Tok.star p :: ts) s2 with
        | some r => some (c :: r.1, r.2)
        | none => tmatch fuel ts (c :: s2)
      else tmatch fuel ts (c :: s2)
  | fuel + 1, Tok.plus p :: ts, s =>
    tmatch fuel (Tok.one p :: Tok.star p :: ts) s

/-- All non-overlapping matches of a token sequence, scanning left to
right (JS `String.match` with the `g` flag): on a failure the start
position advances by one, on a success it jumps past the match. -/
def scanAllMatches (fuel : Nat) (ts : List Tok) : Nat → List Char → List (List Char)
  | 0, _ => []
  | _ + 1, [] =>
    match tmatch fuel ts [] with
    | some r => [r.1]
    | none => []
  | posFuel + 1, s@(_ :: rest) =>
    match tmatch fuel ts s with
    | some r => r.1 :: scanAllMatches fuel ts posFuel r.2
    | none => scanAllMatches fuel ts posFuel rest

/-- The first match of a token sequence (JS `String.match` without the
`g` flag), scanning left to right. -/
def firstMatch (fuel : Nat) (ts : List Tok) : Nat → List Char → Option (List Char)
  | 0, _ => none
  | _ + 1, [] => (tmatch fuel ts []).map Prod.fst
  | posFuel + 1, s@(_ :: rest) =>
    match tmatch fuel ts s with
    | some r => some r.1
    | none => firstMatch fuel ts posFuel rest

/-- Pattern 1 of `scanForApiUrlPatterns`: the literal `/api/` followed
by one or more characters of the restricted class `isB`. -/
def apiPathToks : List Tok := [Tok.lit "/api/".data, Tok.plus isB]

/-- Pattern 2 of `scanForApiUrlPatterns`: a quoted template string
containing an API path — a quote, any run of non-quote characters, the
literal `/api/`, a nonempty run of `isB` characters, another run of
non-quote characters, and a closing quote. -/
def templateToks : List Tok :=
  [Tok.one isQ, Tok.star isA, Tok.lit "/api/".data, Tok.plus isB,
   Tok.star isA, Tok.one isQ]

/-- `match.split(c)[0]`: the characters before the first occurrence of
`c`. -/
def splitHead (c : Char) (s : List Char) : List Char :=
  s.takeWhile (fun x => !(x == c))

/-- The query/fragment cleanup `match.split('?')[0].split('#')[0]`. -/
def cleanPath (s : List Char) : List Char :=
  splitHead '#' (splitHead '?' s)

/-- Fuel comfortably larger than the number of matcher steps possible on
input `s` (each step consumes a character or a token of the at most
six-token sequences). -/
def fuelFor (s : List Char) : Nat := 16 * s.length + 64

/-- `Scanner.scanForApiUrlPatterns` (src/lib/scanner.js:187-214): the
list of `(cleaned path, provenance type)` pairs it hands to
`addReference`, in call order — all pattern-1 matches (type
`url-string`) first, then all pattern-2 matches (type `template-url`,
each reduced to the first pattern-1 submatch inside it). -/
def scanForApiUrlPatterns (s : String) : List (String × String) :=
  let cs := s.data
  let fl := fuelFor cs
  (scanAllMatches fl apiPathToks fl cs).map
      (fun m => (String.mk (cleanPath m), "url-string"))
    ++ (scanAllMatches fl templateToks fl cs).filterMap
      (fun m =>
        (firstMatch fl apiPathToks fl m).map
          (fun im => (String.mk (cleanPath im), "template-url")))

/-! ## The empty-folder module (src/unnamed/part_001)

Directories are modelled as trees; the contents of a directory are an
insertion-ordered list of named entries.  Folder paths are modelled as
segment lists (the source manipulates `path.sep`-joined strings; the
segment list is its `split(path.sep)`). -/

/-- A file-system node. -/
inductive FSTree where
  | file : FSTree
  | dir : List (String × FSTree) → FSTree
deriving Repr

/-- `EmptyFolderDetector.hasNonEmptyContent` (part_001:69-84): true when
the entry list transitively contains at least one file. -/
def hasFilesList : List (String × FSTree) → Bool
  | [] => false
  | (_, FSTree.file) :: _ => true
  | (_, FSTree.dir es) :: rest => hasFilesList es || hasFilesList rest

mutual

/-- `EmptyFolderDetector.findEmptyFoldersInDirectory` (part_001:32-67)
called on the directory at path `pre` whose entries are `es`: an empty
entry list reports the directory itself; otherwise the recursion
reports the empty folders of each subdirectory in entry order and finally
the directory itself when it holds no transitive files. -/
def findEmptyFoldersInDirectory (pre : List String)
    (es : List (String × FSTree)) : List (List String) :=
  if es.isEmpty then [pre]
  else
    findEmptyFoldersList pre es ++ (if hasFilesList es then [] else [pre])

/-- The subdirectory loop of `findEmptyFoldersInDirectory` (files are
skipped, directories are recursed into, part_001:43-51). -/
def findEmptyFoldersList (pre : List String) :
    List (String × FSTree) → List (List String)
  | [] => []
  | (_, FSTree.file) :: rest => findEmptyFoldersList pre rest
  | (n, FSTree.dir sub) :: rest =>
    findEmptyFoldersInDirectory (pre ++ [n]) sub ++ findEmptyFoldersList pre rest

end

/-- Resolve a path to the entry list of the directory it names. -/
def dirEntriesAt : List (String × FSTree) → List String → Option (List (String × FSTree))
  | es, [] => some es
  | es, n :: rest =>
    match mapLookup es n with
    | some (FSTree.dir sub) => dirEntriesAt sub rest
    | _ => none

/-- `EmptyFolderDetector.isDirectoryEmpty` (part_001:118-143) evaluated
against the current file system: true exactly when the path resolves to
a directory with no transitive files (any read error, e.g. a missing or
non-directory path, yields `false` in the source). -/
def isDirectoryEmpty (fs : List (String × FSTree)) (p : List String) : Bool :=
  match dirEntriesAt fs p with
  | some es => !hasFilesList es
  | none => false

/-- `fs.remove`: delete the subtree at a path (no-op when absent). -/
def removeAt : List (String × FSTree) → List String → List (String × FSTree)
  | es, [] => es
  | es, [n] => es.filter (fun e => !(e.1 == n))
  | es, n :: rest =>
    es.map (fun e =>
      match e.2 with
      | FSTree.dir sub => if e.1 == n then (e.1, FSTree.dir (removeAt sub rest)) else e
      | FSTree.file => e)

/-- Stable insertion for the deepest-first sort of
`deleteEmptyFolders` (part_001:93-97): a later element is placed after
all earlier elements of greater-or-equal depth. -/
def insertDepthDesc (a : List String) : List (List String) → List (List String)
  | [] => [a]
  | b :: l =>
    if a.length ≤ b.length then b :: insertDepthDesc a l else a :: b :: l

/-- The deepest-first stable sort `folderPaths.sort((a, b) => depthB -
depthA)` (JS `Array.sort` is stable; a stable sort by a total preorder
is unique, so insertion sort computes exactly the JS result; the depth
of a path string is the length of its segment list). -/
def sortDepthDesc (l : List (List String)) : List (List String) :=
  l.foldl (fun acc a => insertDepthDesc a acc) []

/-- State threaded through the deletion loop: the current file system
and the accumulated `deleted` / `errors` result lists. -/
structure DelState where
  fs : List (String × FSTree)
  deleted : List (List String)
  errors : List (List String × String)
deriving Repr

/-- One iteration of the `deleteEmptyFolders` loop (part_001:99-113),
parameterized by an environment oracle `fails` giving the error message
`fs.remove` throws on a path (`none` = the removal succeeds).  The
emptiness re-check is evaluated against the current file system; a
directory that is no longer empty is skipped with no record; a removal
failure is appended to `errors` and the loop continues. -/
def delStep (fails : List String → Option String) (s : DelState)
    (p : List String) : DelState :=
  if isDirectoryEmpty s.fs p then
    match fails p with
    | some msg => { s with errors := s.errors ++ [(p, msg)] }
    | none => { s with fs := removeAt s.fs p, deleted := s.deleted ++ [p] }
  else s

/-- `EmptyFolderDetector.deleteEmptyFolders` (part_001:86-116). -/
def deleteEmptyFolders (fails : List String → Option String)
    (folderPaths : List (List String)) (fs : List (String × FSTree)) : DelState :=
  (sortDepthDesc folderPaths).foldl (delStep fails) ⟨fs, [], []⟩

/-! ## Lemmas about the classification loop -/

/-- Membership in a stable-insertion step. -/
theorem mem_insertConf (a x : ActionResult) (l : List ActionResult) :
    a ∈ insertConf x l ↔ a = x ∨ a ∈ l := by
  induction l with
  | nil => simp [insertConf]
  | cons b l ih =>
    simp only [insertConf]
    split
    · simp only [List.mem_cons, ih]
      tauto
    · simp only [List.mem_cons]

/-- Membership in the fold underlying `sortConf`. -/
theorem mem_sortConf_fold (l : List ActionResult) :
    ∀ acc a, a ∈ l.foldl (fun acc x => insertConf x acc) acc ↔ a ∈ acc ∨ a ∈ l := by
  induction l with
  | nil => intro acc a; simp
  | cons x l ih =>
    intro acc a
    simp only [List.foldl_cons]
    rw [ih]
    rw [mem_insertConf]
    simp
    tauto

/-- `sortConf` does not change the set of actions. -/
theorem mem_sortConf (l : List ActionResult) (a : ActionResult) :
    a ∈ sortConf l ↔ a ∈ l := by
  unfold sortConf
  rw [mem_sortConf_fold]
  simp

/-- The classification invariant of one produced `ActionResult`. -/
def Classified (a : ActionResult) : Prop :=
  a.referenceCount = a.references.length ∧
  (a.references.length = 0 →
    a.confidence = "safe-to-delete" ∧ a.status = "unused") ∧
  (a.references.length ≠ 0 →
    a.confidence = "review-needed" ∧ a.status = "used")

/-- Every action the classification loop appends satisfies the
classification invariant. -/
theorem analyzeLoop_mem (sa : SAMap) :
    ∀ acc a, a ∈ (analyzeLoop acc sa).2 → a ∈ acc.2 ∨ Classified a := by
  induction sa with
  | nil => intro acc a h; simpa [analyzeLoop] using Or.inl h
  | cons e rest ih =>
    intro acc a h
    obtain ⟨sum, acts⟩ := acc
    obtain ⟨url, ad⟩ := e
    by_cases hz : ad.references.length = 0
    · simp only [analyzeLoop] at h
      rw [if_pos hz] at h
      rcases ih _ a h with hmem | hcl
      · simp only [List.mem_append, List.mem_singleton] at hmem
        rcases hmem with hmem | rfl
        · exact Or.inl hmem
        · exact Or.inr ⟨rfl, fun _ => ⟨rfl, rfl⟩, fun hne => absurd hz hne⟩
      · exact Or.inr hcl
    · simp only [analyzeLoop] at h
      rw [if_neg hz] at h
      rcases ih _ a h with hmem | hcl
      · simp only [List.mem_append, List.mem_singleton] at hmem
        rcases hmem with hmem | rfl
        · exact Or.inl hmem
        · exact Or.inr ⟨rfl, fun h0 => absurd h0 hz, fun _ => ⟨rfl, rfl⟩⟩
      · exact Or.inr hcl

/-- C1: in every scan result, the classification of each action is a pure
function of its reference-list length: zero references give confidence
`safe-to-delete` and status `unused`; one or more references give
confidence `review-needed` and status `used` (and the reported
`referenceCount` is that length). -/
theorem claim_C1_classification (sa : SAMap) (a : ActionResult)
    (h : a ∈ (analyzeResults sa).actions) :
    a.referenceCount = a.references.length ∧
    (a.references.length = 0 →
      a.confidence = "safe-to-delete" ∧ a.status = "unused") ∧
    (a.references.length ≠ 0 →
      a.confidence = "review-needed" ∧ a.status = "used") := by
  unfold analyzeResults at h
  rw [mem_sortConf] at h
  rcases analyzeLoop_mem sa _ a h with hmem | hcl
  · simp at hmem
  · exact hcl

/-- Witness for C1 at a concrete scan state: one action with no
references and one with a single reference. -/
theorem claim_C1_classification_witness :
    (⟨"/api/x", "app/api/x.json", "unused", "safe-to-delete", 0, [],
       Json.null⟩ : ActionResult) ∈
      (analyzeResults [("/api/x", ⟨"app/api/x.json", "app/api/x.json",
        Json.null, []⟩)]).actions ∧
    ((⟨"/api/x", "app/api/x.json", "unused", "safe-to-delete", 0, [],
       Json.null⟩ : ActionResult).referenceCount = 0 ∧
      "safe-to-delete" = "safe-to-delete") := by
  refine ⟨?_, ?_⟩
  · simp [analyzeResults, analyzeLoop, sortConf, insertConf]
  · have h := claim_C1_classification
      [("/api/x", ⟨"app/api/x.json", "app/api/x.json", Json.null, []⟩)]
      ⟨"/api/x", "app/api/x.json", "unused", "safe-to-delete", 0, [], Json.null⟩
      (by simp [analyzeResults, analyzeLoop, sortConf, insertConf])
    exact ⟨h.1, rfl⟩

/-- The summary counters of the classification loop: `totalActions` and
`possiblyUnused` are never touched, and each entry bumps exactly one of
`used`/`likelyUnused`. -/
theorem analyzeLoop_summary (sa : SAMap) :
    ∀ sum acts,
      (analyzeLoop (sum, acts) sa).1.totalActions = sum.totalActions ∧
      (analyzeLoop (sum, acts) sa).1.possiblyUnused = sum.possiblyUnused ∧
      (analyzeLoop (sum, acts) sa).1.used +
          (analyzeLoop (sum, acts) sa).1.likelyUnused =
        sum.used + sum.likelyUnused + sa.length := by
  induction sa with
  | nil => intro sum acts; simp [analyzeLoop]
  | cons e rest ih =>
    intro sum acts
    obtain ⟨url, ad⟩ := e
    by_cases hz : ad.references.length = 0
    · simp only [analyzeLoop]
      rw [if_pos hz]
      obtain ⟨h1, h2, h3⟩ := ih { sum with likelyUnused := sum.likelyUnused + 1 }
        (acts ++ [⟨url, ad.relativePath, "unused", "safe-to-delete",
                   ad.references.length, ad.references, ad.content⟩])
      refine ⟨h1, h2, ?_⟩
      rw [h3]
      simp
      omega
    · simp only [analyzeLoop]
      rw [if_neg hz]
      obtain ⟨h1, h2, h3⟩ := ih { sum with used := sum.used + 1 }
        (acts ++ [⟨url, ad.relativePath, "used", "review-needed",
                   ad.references.length, ad.references, ad.content⟩])
      refine ⟨h1, h2, ?_⟩
      rw [h3]
      simp
      omega

/-- C9: in every produced scan result, `summary.totalActions` equals
`summary.used + summary.likelyUnused`, and `summary.possiblyUnused` is
`0` — the middle confidence tier is never produced. -/
theorem claim_C9_summary_invariant (sa : SAMap) :
    (analyzeResults sa).summary.totalActions =
      (analyzeResults sa).summary.used +
        (analyzeResults sa).summary.likelyUnused ∧
    (analyzeResults sa).summary.possiblyUnused = 0 := by
  unfold analyzeResults
  obtain ⟨h1, h2, h3⟩ := analyzeLoop_summary sa ⟨sa.length, 0, 0, 0⟩ []
  constructor
  · simp only [h1, h3]
    omega
  · simpa using h2

/-! ## C3: the magic-link template string -/

/-- The generic string of spec §8: a free-text fragment holding a quoted
string-concatenation pattern around an API path (apostrophes written as
escapes). -/
def c3str : String :=
  "...click here: \x27/api/v1/security/magic-login?token=\x27+tok..."

set_option maxRecDepth 4000

/-- C3 counterexample: on the magic-link string the URL-pattern scan
emits TWO references, not exactly one — pattern 1 (`url-string`, the
embedded-url-string of the spec) also fires on the bare `/api/...` substring
before pattern 2 (`template-url`, the template-url-string of the spec)
matches the quoted template; so the claim "exactly one extracted
reference, of provenance type template-url-string" is false. -/
theorem claim_C3_counterexample :
    (scanForApiUrlPatterns c3str).map Prod.snd =
      ["url-string", "template-url"] ∧
    (scanForApiUrlPatterns c3str).length ≠ 1 := by
  constructor
  · rfl
  · decide

/-- C3 amended: extracting references from the magic-link string yields
exactly two references, one of provenance `url-string` and one of
provenance `template-url`, both normalized to
`/api/v1/security/magic-login` with the query fragment discarded. -/
theorem claim_C3_template_url_extraction :
    scanForApiUrlPatterns c3str =
      [("/api/v1/security/magic-login", "url-string"),
       ("/api/v1/security/magic-login", "template-url")] := by
  rfl

/-! ## String lemmas for the normalization rules -/

theorem startsWith_append (p t : List Char) :
    listStartsWith p (p ++ t) = true := by
  induction p with
  | nil => rfl
  | cons c cs ih => simp [listStartsWith, ih]

theorem startsWith_append_of_le (p : List Char) :
    ∀ l t : List Char, p.length ≤ l.length →
      listStartsWith p (l ++ t) = listStartsWith p l := by
  induction p with
  | nil => intro l t _; rfl
  | cons c cs ih =>
    intro l t h
    cases l with
    | nil => simp at h
    | cons d ds =>
      simp only [List.cons_append, listStartsWith, List.append_eq]
      rw [ih ds t (by simpa using h)]

theorem startsWith_of_append_startsWith (p q : List Char) :
    ∀ s : List Char, listStartsWith (p ++ q) s = true →
      listStartsWith p s = true := by
  induction p with
  | nil => intro s _; rfl
  | cons c cs ih =>
    intro s h
    cases s with
    | nil => simp [listStartsWith] at h
    | cons d ds =>
      simp only [List.cons_append, listStartsWith, Bool.and_eq_true] at h ⊢
      exact ⟨h.1, ih ds h.2⟩

theorem startsWith_mem (p : List Char) :
    ∀ s : List Char, ∀ c : Char,
      listStartsWith p s = true → c ∈ p → c ∈ s := by
  induction p with
  | nil => intro s c _ hc; simp at hc
  | cons d ds ih =>
    intro s c h hc
    cases s with
    | nil => simp [listStartsWith] at h
    | cons e es =>
      simp only [listStartsWith, Bool.and_eq_true, beq_iff_eq] at h
      rcases List.mem_cons.mp hc with rfl | hc
      · rw [h.1]; exact List.mem_cons_self _ _
      · exact List.mem_cons_of_mem _ (ih es c h.2 hc)

theorem replaceFirst_of_startsWith (pat rep s : List Char)
    (hne : pat ≠ []) (h : listStartsWith pat s = true) :
    replaceFirstFrom pat rep s = rep ++ s.drop pat.length := by
  cases s with
  | nil =>
    cases pat with
    | nil => exact absurd rfl hne
    | cons c cs => simp [listStartsWith] at h
  | cons c cs => simp [replaceFirstFrom, h]

theorem replaceFirst_cons_of_ne (p0 : Char) (pt rep : List Char) (c : Char)
    (s : List Char) (hne : p0 ≠ c) :
    replaceFirstFrom (p0 :: pt) rep (c :: s) =
      c :: replaceFirstFrom (p0 :: pt) rep s := by
  have hb : (p0 == c) = false := beq_eq_false_iff_ne.mpr hne
  simp [replaceFirstFrom, listStartsWith, hb]

theorem replaceFirst_no_head_in_front (p0 : Char) (pt rep : List Char) :
    ∀ x : List Char, p0 ∉ x →
      replaceFirstFrom (p0 :: pt) rep (x ++ (p0 :: pt)) = x ++ rep := by
  intro x
  induction x with
  | nil =>
    intro _
    have hsw : listStartsWith (p0 :: pt) ((p0 :: pt) ++ []) = true :=
      startsWith_append _ _
    rw [List.append_nil] at hsw
    rw [List.nil_append,
        replaceFirst_of_startsWith _ _ _ (by simp) hsw]
    simp [List.drop_length]
  | cons c cs ih =>
    intro h
    have hc : p0 ≠ c := by
      intro hc2; exact h (hc2 ▸ List.mem_cons_self _ _)
    have hcs : p0 ∉ cs := fun hm => h (List.mem_cons_of_mem _ hm)
    rw [List.cons_append, replaceFirst_cons_of_ne _ _ _ _ _ hc, ih hcs,
        List.cons_append]

theorem nodot_replaceFirst_json (x : List Char) (h : ('.' : Char) ∉ x) :
    replaceFirstFrom ".json".data [] (x ++ ".json".data) = x := by
  have hx := replaceFirst_no_head_in_front '.' "json".data [] x h
  simpa using hx

theorem nodot_not_endsWith_json (x : List Char) (h : ('.' : Char) ∉ x) :
    listEndsWith ".json".data x = false := by
  cases hE : listEndsWith ".json".data x
  · rfl
  · exfalso
    unfold listEndsWith at hE
    have hm : ('.' : Char) ∈ x.reverse :=
      startsWith_mem _ _ _ hE (by decide)
    rw [List.mem_reverse] at hm
    exact h hm

theorem endsWith_append (pat x : List Char) :
    listEndsWith pat (x ++ pat) = true := by
  unfold listEndsWith
  rw [List.reverse_append]
  exact startsWith_append _ _

theorem startsWith_false_of_append (p q s : List Char)
    (h : listStartsWith p s = false) :
    listStartsWith (p ++ q) s = false := by
  cases hP : listStartsWith (p ++ q) s
  · rfl
  · rw [startsWith_of_append_startsWith p q s hP] at h
    exact h.symm ▸ rfl

/-! ## C2: normalization vs. action indexing -/

/-- Internal-root rewrite: a reference `/app/api/<s>.json` (with a
dot-free `<s>`) normalizes to exactly the key under which the action
file `app/api/<s>.json` is indexed. -/
theorem normalizeRef_matches_appApi_file (s : List Char)
    (h : ('.' : Char) ∉ s) :
    normalizeRefL ("/app/api/".data ++ s ++ ".json".data) =
      filePathToUrlL ("app/api/".data ++ s ++ ".json".data) := by
  have hdot1 : ('.' : Char) ∉ "/api/".data ++ s := by
    intro hm
    rcases List.mem_append.mp hm with h1 | h2
    · exact absurd h1 (by decide)
    · exact h h2
  have hdotR : ('.' : Char) ∉ "api/".data ++ s := by
    intro hm
    rcases List.mem_append.mp hm with h1 | h2
    · exact absurd h1 (by decide)
    · exact h h2
  have cond1 : ¬(listStartsWith "/api/".data
      (("/app/api/".data ++ s) ++ ".json".data) = true) := by
    rw [List.append_assoc, startsWith_append_of_le _ _ _ (by decide)]
    decide
  have cond2 : listStartsWith "/app/api/".data
      (("/app/api/".data ++ s) ++ ".json".data) = true := by
    rw [List.append_assoc]
    exact startsWith_append _ _
  have step2 : replaceFirstFrom "/app/api/".data "/api/".data
      (("/app/api/".data ++ s) ++ ".json".data) =
      ("/api/".data ++ s) ++ ".json".data := by
    rw [List.append_assoc,
        replaceFirst_of_startsWith _ _ _ (by decide) (by
          exact startsWith_append _ _),
        List.drop_left, ← List.append_assoc]
  have cond4 : listEndsWith ".json".data
      (("/api/".data ++ s) ++ ".json".data) = true :=
    endsWith_append _ _
  have condR1 : listStartsWith "app/api/".data
      (("app/api/".data ++ s) ++ ".json".data) = true := by
    rw [List.append_assoc]
    exact startsWith_append _ _
  have stepR1 : replaceFirstFrom "app/".data []
      (("app/api/".data ++ s) ++ ".json".data) =
      ("api/".data ++ s) ++ ".json".data := by
    have hsplit : ("app/api/".data : List Char) = "app/".data ++ "api/".data := by
      decide
    rw [hsplit, List.append_assoc, List.append_assoc,
        replaceFirst_of_startsWith _ _ _ (by decide) (startsWith_append _ _),
        List.drop_left, List.nil_append, ← List.append_assoc]
  simp only [normalizeRefL, filePathToUrlL]
  rw [if_neg cond1, if_pos cond2, step2, if_pos cond4,
      nodot_replaceFirst_json _ hdot1, if_pos condR1, stepR1,
      nodot_replaceFirst_json _ hdotR]
  rfl

/-- Library-prefix rule: a bare dot-free identifier `s` (not absolute,
not already under `lib/`) normalizes to `lib/<s>`, exactly the key
under which the action file `app/lib/<s>.json` is indexed. -/
theorem normalizeRef_matches_lib_file (s : List Char)
    (h : ('.' : Char) ∉ s)
    (hslash : listStartsWith "/".data s = false)
    (hlib : listStartsWith "lib/".data s = false) :
    normalizeRefL s = "lib/".data ++ s ∧
    filePathToUrlL ("app/lib/".data ++ s ++ ".json".data) =
      "lib/".data ++ s := by
  have hdotL : ('.' : Char) ∉ "lib/".data ++ s := by
    intro hm
    rcases List.mem_append.mp hm with h1 | h2
    · exact absurd h1 (by decide)
    · exact h h2
  constructor
  · have cond1 : ¬(listStartsWith "/api/".data s = true) := by
      have : listStartsWith ("/".data ++ "api/".data) s = false :=
        startsWith_false_of_append _ _ _ hslash
      simp only [show ("/".data ++ "api/".data : List Char) = "/api/".data
        from by decide] at this
      simp [this]
    have cond2 : ¬(listStartsWith "/app/api/".data s = true) := by
      have : listStartsWith ("/".data ++ "app/api/".data) s = false :=
        startsWith_false_of_append _ _ _ hslash
      simp only [show ("/".data ++ "app/api/".data : List Char) = "/app/api/".data
        from by decide] at this
      simp [this]
    have cond3 : (!listStartsWith "/".data s
        && !listStartsWith "lib/".data s) = true := by
      rw [hslash, hlib]
      rfl
    have cond4 : ¬(listEndsWith ".json".data ("lib/".data ++ s) = true) := by
      rw [nodot_not_endsWith_json _ hdotL]
      exact Bool.false_ne_true
    simp only [normalizeRefL]
    rw [if_neg cond1, if_neg cond2, if_pos cond3, if_neg cond4]
  · have condA : ¬(listStartsWith "app/api/".data
        (("app/lib/".data ++ s) ++ ".json".data) = true) := by
      rw [List.append_assoc, startsWith_append_of_le _ _ _ (by decide)]
      decide
    have condB : listStartsWith "app/lib/".data
        (("app/lib/".data ++ s) ++ ".json".data) = true := by
      rw [List.append_assoc]
      exact startsWith_append _ _
    have stepB : replaceFirstFrom "app/".data []
        (("app/lib/".data ++ s) ++ ".json".data) =
        ("lib/".data ++ s) ++ ".json".data := by
      have hsplit : ("app/lib/".data : List Char) = "app/".data ++ "lib/".data := by
        decide
      rw [hsplit, List.append_assoc, List.append_assoc,
          replaceFirst_of_startsWith _ _ _ (by decide) (startsWith_append _ _),
          List.drop_left, List.nil_append, ← List.append_assoc]
    simp only [filePathToUrlL]
    rw [if_neg condA, if_pos condB, stepB, nodot_replaceFirst_json _ hdotL]

/-- C2 counterexample: the extension rule of the code is JS
JS replace of the first occurrence, which removes the FIRST `.json`
whenever the string ends with `.json` — not the trailing extension.  On
`/api/a.json/b.json` the code produces `/api/a/b.json`, while the
claimed trailing-extension strip would produce `/api/a.json/b`. -/
theorem claim_C2_counterexample :
    normalizeRef "/api/a.json/b.json" = "/api/a/b.json" ∧
    String.mk (specNormalizeTrailingStrip "/api/a.json/b.json".data) =
      "/api/a.json/b" ∧
    normalizeRefL "/api/a.json/b.json".data ≠
      specNormalizeTrailingStrip "/api/a.json/b.json".data := by
  refine ⟨rfl, rfl, ?_⟩
  decide

/-- C2 amended: the normalization rules apply in order with first match
winning — leading `/api/` passes through, leading `/app/api/` is
rewritten to `/api/`, a bare identifier (not absolute, not under
`lib/`) gets the `lib/` prefix — and then, when the string ends in
`.json`, the FIRST occurrence of the substring `.json` is removed
(which strips the trailing extension whenever `.json` occurs only
once, e.g. for dot-free action paths).  Under this rule
`/app/api/<s>.json` normalizes to the index key of the action declared
at file `app/api/<s>.json`, a bare `<s>` normalizes to `lib/<s>`, the
index key of the action declared at `app/lib/<s>.json`, and the two
concrete examples of the claim hold. -/
theorem claim_C2_normalization_rules :
    (∀ s : List Char, ('.' : Char) ∉ s →
      normalizeRefL ("/app/api/".data ++ s ++ ".json".data) =
        filePathToUrlL ("app/api/".data ++ s ++ ".json".data)) ∧
    (∀ s : List Char, ('.' : Char) ∉ s →
      listStartsWith "/".data s = false →
      listStartsWith "lib/".data s = false →
      normalizeRefL s = "lib/".data ++ s ∧
      filePathToUrlL ("app/lib/".data ++ s ++ ".json".data) =
        "lib/".data ++ s) ∧
    normalizeRef "/app/api/v1/queues/sync.json" =
      filePathToUrl "app/api/v1/queues/sync.json" ∧
    normalizeRef "/app/api/v1/queues/sync.json" = "/api/v1/queues/sync" ∧
    normalizeRef "security/check" = "lib/security/check" ∧
    filePathToUrl "app/lib/security/check.json" = "lib/security/check" := by
  refine ⟨normalizeRef_matches_appApi_file,
          normalizeRef_matches_lib_file, rfl, rfl, rfl, rfl⟩

/-- Witness for C2 at the concrete paths of the claim. -/
theorem claim_C2_normalization_rules_witness :
    normalizeRefL ("/app/api/".data ++ "v1/queues/sync".data ++ ".json".data) =
      filePathToUrlL ("app/api/".data ++ "v1/queues/sync".data ++ ".json".data) ∧
    normalizeRefL "security/check".data =
      "lib/".data ++ "security/check".data :=
  ⟨claim_C2_normalization_rules.1 _ (by decide),
   (claim_C2_normalization_rules.2.1 _ (by decide) (by decide) (by decide)).1⟩

/-! ## C4: behaviour on strings that cannot be valid references -/

/-- The key-updating map inside `addReference` leaves the key set (and
hence `hasKey`) unchanged. -/
theorem hasKey_map_update {α : Type} (np : String) (g : String × α → α) :
    ∀ l : List (String × α),
      hasKey (l.map (fun e => if e.1 == np then (e.1, g e) else e)) np =
        hasKey l np := by
  intro l
  induction l with
  | nil => rfl
  | cons e rest ih =>
    simp only [List.map_cons]
    cases he : e.1 == np with
    | false =>
      rw [if_neg Bool.false_ne_true]
      simp only [hasKey]
      rw [ih]
    | true =>
      rw [if_pos rfl]
      simp only [hasKey]
      rw [ih]

/-- `hasKey` distributes over append. -/
theorem hasKey_append {α : Type} (k : String) :
    ∀ a b : List (String × α),
      hasKey (a ++ b) k = (hasKey a k || hasKey b k) := by
  intro a b
  induction a with
  | nil => rfl
  | cons e rest ih => simp [hasKey, ih, Bool.or_assoc]

/-- C4 counterexample: the empty string — which cannot be a valid
reference — is NOT dropped: it is normalized to the key `lib/` and a
reference record IS stored in the auxiliary `references` lookup,
contradicting the claimed `null`/no-op contract. -/
theorem claim_C4_counterexample :
    normalizeRef "" = "lib/" ∧
    (addReference initScanner ⟨"", "views/mail.html", "html-url"⟩).references =
      [("lib/", [⟨"views/mail.html", "html-url", ""⟩])] ∧
    (addReference initScanner ⟨"", "views/mail.html", "html-url"⟩).references ≠
      initScanner.references := by
  refine ⟨rfl, rfl, ?_⟩
  intro hcontra
  simp [addReference, addRefRefs, initScanner, hasKey] at hcontra

/-- C4 amended: normalization is total and never yields `null` — even
the empty string and pure fragments produce a logical key (`lib/` and
`lib/#fragment` respectively) and are always recorded in the auxiliary
reference lookup; such a string changes the reference list of no Action
provided no declared Action is indexed under the resulting key. -/
theorem claim_C4_invalid_strings :
    normalizeRef "" = "lib/" ∧
    normalizeRef "#fragment" = "lib/#fragment" ∧
    (∀ (st : ScannerState) (rc : RefCall),
      hasKey st.serverActions (normalizeRef rc.referencedPath) = false →
      (addReference st rc).serverActions = st.serverActions) ∧
    (∀ (st : ScannerState) (rc : RefCall),
      hasKey (addReference st rc).references
        (normalizeRef rc.referencedPath) = true) := by
  refine ⟨rfl, rfl, ?_, ?_⟩
  · intro st rc h
    simp only [addReference, addRefSA]
    rw [if_neg (by rw [h]; exact Bool.false_ne_true)]
  · intro st rc
    simp only [addReference, addRefRefs]
    rw [hasKey_map_update]
    cases hk : hasKey st.references (normalizeRef rc.referencedPath) with
    | false =>
      rw [if_neg Bool.false_ne_true, hasKey_append]
      simp [hasKey, hk]
    | true =>
      rw [if_pos rfl]
      exact hk

/-- Witness for C4 at the empty string on a fresh scanner. -/
theorem claim_C4_invalid_strings_witness :
    (addReference initScanner ⟨"", "views/mail.html", "html-url"⟩).serverActions =
      initScanner.serverActions ∧
    hasKey (addReference initScanner
        ⟨"", "views/mail.html", "html-url"⟩).references (normalizeRef "") = true :=
  ⟨claim_C4_invalid_strings.2.2.1 initScanner _ (by decide),
   claim_C4_invalid_strings.2.2.2 initScanner _⟩

/-! ## C8: a parse failure is never fatal -/

/-- The `addReference` calls one string field produces when run through
the URL-pattern scan (`value`/`url`/`link` handling of
`scanJsonFiles`); non-strings are skipped by the `typeof` guards. -/
def urlScanCalls (src : String) (v : Json) : List RefCall :=
  match v with
  | Json.str s => (scanForApiUrlPatterns s).map (fun pr => ⟨pr.1, src, pr.2⟩)
  | _ => []

/-- The `addReference` calls `scanJsonFiles` makes for one candidate
file (src/lib/scanner.js:138-184): `api_file`, `exec` and `module`
fields are direct references; `value`, `url` and `link` string fields
go through the URL-pattern scan.  A file that fails to parse
contributes nothing — the catch block skips it silently. -/
def scanJsonFileCalls (f : DiscFile) : List RefCall :=
  match f.parsed with
  | none => []
  | some c =>
    (findInObject c "api_file").filterMap (fun v =>
      match v with
      | Json.str s => some ⟨s, f.relativePath, "queue-api-file"⟩
      | _ => none) ++
    (findInObject c "exec").filterMap (fun v =>
      match v with
      | Json.str s => some ⟨s, f.relativePath, "exec-string"⟩
      | _ => none) ++
    (findInObject c "module").filterMap (fun v =>
      match v with
      | Json.str s => some ⟨s, f.relativePath, "exec-module"⟩
      | _ => none) ++
    ((findInObject c "value").map (urlScanCalls f.relativePath)).flatten ++
    ((findInObject c "url").map (urlScanCalls f.relativePath)).flatten ++
    ((findInObject c "link").map (urlScanCalls f.relativePath)).flatten

/-- `Scanner.scanJsonFiles` (src/lib/scanner.js:133-185): the full
`addReference` call sequence over the candidate structured files. -/
def scanJsonFiles (files : List DiscFile) : List RefCall :=
  (files.map scanJsonFileCalls).flatten

/-- Skipping a parse failure: discovery over a file list containing an
unparsable file equals discovery without it. -/
theorem discover_skip_parse_failure (m : SAMap) (l1 l2 : List DiscFile)
    (name : String) :
    discoverServerActions m (l1 ++ ⟨name, none⟩ :: l2) =
      discoverServerActions m (l1 ++ l2) := by
  simp only [discoverServerActions, List.foldl_append, List.foldl_cons]
  rfl

/-- C8: a candidate file that fails to parse is skipped with a warning
and excluded from the Action index, and the scan completes with the
full result for all remaining files: the discovered index, the
`scanJsonFiles` reference calls and the final scan result are exactly
those of the same file list without the unparsable file, plus one
warning line for it. -/
theorem claim_C8_parse_failure_skipped :
    (∀ (m : SAMap) (l1 l2 : List DiscFile) (name : String),
      discoverServerActions m (l1 ++ ⟨name, none⟩ :: l2) =
        discoverServerActions m (l1 ++ l2)) ∧
    (∀ (l1 l2 : List DiscFile) (name : String),
      discoverWarnings (l1 ++ ⟨name, none⟩ :: l2) =
        discoverWarnings l1 ++ ("Warning: Could not parse " ++ name) ::
          discoverWarnings l2) ∧
    (∀ (l1 l2 : List DiscFile) (name : String),
      scanJsonFiles (l1 ++ ⟨name, none⟩ :: l2) = scanJsonFiles (l1 ++ l2)) ∧
    (∀ (l1 l2 : List DiscFile) (name : String) (rcs : List RefCall)
        (st : ScannerState),
      (scanOnce (l1 ++ ⟨name, none⟩ :: l2) rcs st).1 =
        (scanOnce (l1 ++ l2) rcs st).1) := by
  refine ⟨discover_skip_parse_failure, ?_, ?_, ?_⟩
  · intro l1 l2 name
    simp [discoverWarnings, List.filterMap_append, List.filterMap_cons, warnOf]
  · intro l1 l2 name
    simp [scanJsonFiles, scanJsonFileCalls]
  · intro l1 l2 name rcs st
    simp only [scanOnce, discover_skip_parse_failure]

/-! ## C6: which folders the detector reports -/

/-- `DirAt p es sub`: starting from a directory whose entries are `es`,
following the relative path `p` reaches a directory whose entries are
`sub`. -/
inductive DirAt : List String → List (String × FSTree) → List (String × FSTree) → Prop
  | refl (es : List (String × FSTree)) : DirAt [] es es
  | step {n : String} {sub es sub2 : List (String × FSTree)} {p : List String} :
      (n, FSTree.dir sub) ∈ es → DirAt p sub sub2 → DirAt (n :: p) es sub2

theorem dirAt_nil_inv {es sub : List (String × FSTree)}
    (h : DirAt [] es sub) : sub = es := by
  cases h
  rfl

theorem dirAt_cons_inv {n : String} {p : List String}
    {es sub2 : List (String × FSTree)} (h : DirAt (n :: p) es sub2) :
    ∃ sub, (n, FSTree.dir sub) ∈ es ∧ DirAt p sub sub2 := by
  cases h with
  | step hmem hrec => exact ⟨_, hmem, hrec⟩

theorem dirAt_of_nil {q : List String} {sub : List (String × FSTree)}
    (h : DirAt q [] sub) : q = [] ∧ sub = [] := by
  cases h with
  | refl => exact ⟨rfl, rfl⟩
  | step hmem _ => simp at hmem

/-- Characterization of the two mutually recursive folder walks, by
strong induction on the size of the entry list: the subdirectory loop
reports exactly the file-free directories strictly below the root, and
the full walk reports exactly the file-free directories including the
root. -/
theorem findEmptyFolders_spec (k : Nat) :
    ∀ es : List (String × FSTree), sizeOf es ≤ k →
      (∀ (pre : List String) (p : List String),
        p ∈ findEmptyFoldersList pre es ↔
          ∃ (m : String) (q : List String) (sub sub2 : List (String × FSTree)),
            p = pre ++ m :: q ∧ (m, FSTree.dir sub) ∈ es ∧
            DirAt q sub sub2 ∧ hasFilesList sub2 = false) ∧
      (∀ (pre : List String) (p : List String),
        p ∈ findEmptyFoldersInDirectory pre es ↔
          ∃ (q : List String) (sub : List (String × FSTree)),
            p = pre ++ q ∧ DirAt q es sub ∧ hasFilesList sub = false) := by
  induction k using Nat.strong_induction_on with
  | _ k ih =>
    have hlist : ∀ es2 : List (String × FSTree), sizeOf es2 ≤ k →
        ∀ (pre : List String) (p : List String),
          p ∈ findEmptyFoldersList pre es2 ↔
            ∃ (m : String) (q : List String) (sub sub2 : List (String × FSTree)),
              p = pre ++ m :: q ∧ (m, FSTree.dir sub) ∈ es2 ∧
              DirAt q sub sub2 ∧ hasFilesList sub2 = false := by
      intro es2
      induction es2 with
      | nil =>
        intro _ pre p
        simp [findEmptyFoldersList]
      | cons e rest ihr =>
        intro hsz2 pre p
        have hszrest : sizeOf rest ≤ k := by
          have hlt : sizeOf rest < sizeOf (e :: rest) := by
            simp only [List.cons.sizeOf_spec]
            omega
          omega
        have hrest := ihr hszrest pre p
        obtain ⟨m0, t⟩ := e
        cases t with
        | file =>
          simp only [findEmptyFoldersList]
          rw [hrest]
          constructor
          · rintro ⟨m, q, sub, sub2, rfl, hmem, hda, hf⟩
            exact ⟨m, q, sub, sub2, rfl, List.mem_cons_of_mem _ hmem, hda, hf⟩
          · rintro ⟨m, q, sub, sub2, rfl, hmem, hda, hf⟩
            rcases List.mem_cons.mp hmem with heq | hmem2
            · simp at heq
            · exact ⟨m, q, sub, sub2, rfl, hmem2, hda, hf⟩
        | dir sub =>
          have hszsub : sizeOf sub ≤ k - 1 := by
            have hlt : sizeOf sub < sizeOf ((m0, FSTree.dir sub) :: rest) := by
              simp only [List.cons.sizeOf_spec, Prod.mk.sizeOf_spec,
                FSTree.dir.sizeOf_spec]
              omega
            omega
          have hk1 : k - 1 < k := by
            have hone : (1 : Nat) ≤ sizeOf ((m0, FSTree.dir sub) :: rest) := by
              simp only [List.cons.sizeOf_spec]
              omega
            omega
          have hsub := (ih (k - 1) hk1 sub hszsub).2 (pre ++ [m0]) p
          simp only [findEmptyFoldersList, List.mem_append]
          rw [hrest, hsub]
          constructor
          · rintro (⟨q, sub2, rfl, hda, hf⟩ | ⟨m, q, sub', sub2, rfl, hmem, hda, hf⟩)
            · exact ⟨m0, q, sub, sub2, by simp, List.mem_cons_self _ _, hda, hf⟩
            · exact ⟨m, q, sub', sub2, rfl, List.mem_cons_of_mem _ hmem, hda, hf⟩
          · rintro ⟨m, q, sub', sub2, rfl, hmem, hda, hf⟩
            rcases List.mem_cons.mp hmem with heq | hmem2
            · have hm : m = m0 := congrArg Prod.fst heq
              have hs : FSTree.dir sub' = FSTree.dir sub := congrArg Prod.snd heq
              have hs2 : sub' = sub := by injection hs
              subst hm
              subst hs2
              exact Or.inl ⟨q, sub2, by simp, hda, hf⟩
            · exact Or.inr ⟨m, q, sub', sub2, rfl, hmem2, hda, hf⟩
    intro es hsz
    refine ⟨hlist es hsz, ?_⟩
    intro pre p
    by_cases hnil : es = []
    · subst hnil
      simp only [findEmptyFoldersInDirectory, List.isEmpty_nil, if_true,
        List.mem_singleton]
      constructor
      · rintro rfl
        exact ⟨[], [], by simp, DirAt.refl [], by simp [hasFilesList]⟩
      · rintro ⟨q, sub, rfl, hda, hf⟩
        obtain ⟨rfl, -⟩ := dirAt_of_nil hda
        simp
    · have hne : es.isEmpty = false := by
        cases es
        · exact absurd rfl hnil
        · rfl
      simp only [findEmptyFoldersInDirectory, hne, Bool.false_eq_true, if_false,
        List.mem_append]
      rw [hlist es hsz pre p]
      constructor
      · rintro (⟨m, q, sub, sub2, rfl, hmem, hda, hf⟩ | hsel)
        · exact ⟨m :: q, sub2, rfl, DirAt.step hmem hda, hf⟩
        · have hff : hasFilesList es = false := by
            rcases Bool.eq_false_or_eq_true (hasFilesList es) with hf | hf
            · rw [hf] at hsel
              simp at hsel
            · exact hf
          rw [hff] at hsel
          simp only [Bool.false_eq_true, if_false, List.mem_singleton] at hsel
          subst hsel
          exact ⟨[], es, by simp, DirAt.refl es, hff⟩
      · rintro ⟨q, sub, rfl, hda, hf⟩
        cases q with
        | nil =>
          have hsubes := dirAt_nil_inv hda
          subst hsubes
          right
          rw [hf]
          simp
        | cons m q =>
          obtain ⟨sub', hmem, hda'⟩ := dirAt_cons_inv hda
          exact Or.inl ⟨m, q, sub', sub, rfl, hmem, hda', hf⟩

/-- C6: `findEmptyFoldersInDirectory` reports exactly the directories
that transitively contain no files (a path is reported iff it reaches a
directory with no transitive files, the root included); in particular a
directory whose immediate entries are exactly two empty subdirectories
is reported together with both subdirectories. -/
theorem claim_C6_empty_folder_detection :
    (∀ (es : List (String × FSTree)) (p : List String),
      p ∈ findEmptyFoldersInDirectory [] es ↔
        ∃ sub : List (String × FSTree),
          DirAt p es sub ∧ hasFilesList sub = false) ∧
    (∀ (pre : List String) (n1 n2 : String),
      findEmptyFoldersInDirectory pre
          [(n1, FSTree.dir []), (n2, FSTree.dir [])] =
        [pre ++ [n1], pre ++ [n2], pre]) := by
  constructor
  · intro es p
    rw [(findEmptyFolders_spec (sizeOf es) es le_rfl).2 [] p]
    constructor
    · rintro ⟨q, sub, hpq, hda, hf⟩
      rw [List.nil_append] at hpq
      subst hpq
      exact ⟨sub, hda, hf⟩
    · rintro ⟨sub, hda, hf⟩
      exact ⟨p, sub, (List.nil_append p).symm, hda, hf⟩
  · intro pre n1 n2
    simp [findEmptyFoldersInDirectory, findEmptyFoldersList, hasFilesList]

/-! ## C7/C10: the deletion loop -/

theorem mem_insertDepthDesc (a x : List String) (l : List (List String)) :
    a ∈ insertDepthDesc x l ↔ a = x ∨ a ∈ l := by
  induction l with
  | nil => simp [insertDepthDesc]
  | cons b l ih =>
    simp only [insertDepthDesc]
    split
    · simp only [List.mem_cons, ih]
      tauto
    · simp only [List.mem_cons]

theorem perm_insertDepthDesc (x : List String) (l : List (List String)) :
    List.Perm (insertDepthDesc x l) (x :: l) := by
  induction l with
  | nil => simp [insertDepthDesc]
  | cons b l ih =>
    simp only [insertDepthDesc]
    split
    · exact ((ih.cons b).trans (List.Perm.swap x b l)).symm.symm
    · exact List.Perm.refl _

theorem sortDepthDesc_fold_perm (l : List (List String)) :
    ∀ acc, List.Perm (l.foldl (fun acc a => insertDepthDesc a acc) acc) (acc ++ l) := by
  induction l with
  | nil => intro acc; simp
  | cons x l ih =>
    intro acc
    simp only [List.foldl_cons]
    have h1 := ih (insertDepthDesc x acc)
    have h2 : List.Perm (insertDepthDesc x acc ++ l) ((x :: acc) ++ l) :=
      (perm_insertDepthDesc x acc).append_right l
    have h3 : List.Perm ((x :: acc) ++ l) (acc ++ x :: l) := by
      simp only [List.cons_append]
      exact List.perm_middle.symm
    exact (h1.trans h2).trans h3

/-- The deepest-first sort is a permutation of its input. -/
theorem sortDepthDesc_perm (l : List (List String)) : List.Perm (sortDepthDesc l) l := by
  have h := sortDepthDesc_fold_perm l []
  simpa using h

theorem pairwise_insertDepthDesc (x : List String) (l : List (List String))
    (h : l.Pairwise (fun a b => b.length ≤ a.length)) :
    (insertDepthDesc x l).Pairwise (fun a b => b.length ≤ a.length) := by
  induction l with
  | nil => simp [insertDepthDesc]
  | cons b l ih =>
    rw [List.pairwise_cons] at h
    obtain ⟨hb, hl⟩ := h
    simp only [insertDepthDesc]
    split
    · rename_i hle
      rw [List.pairwise_cons]
      refine ⟨?_, ih hl⟩
      intro y hy
      rcases (mem_insertDepthDesc y x l).mp hy with rfl | hy2
      · exact hle
      · exact hb y hy2
    · rename_i hgt
      push_neg at hgt
      rw [List.pairwise_cons]
      refine ⟨?_, List.pairwise_cons.mpr ⟨hb, hl⟩⟩
      intro y hy
      rcases List.mem_cons.mp hy with rfl | hy2
      · exact le_of_lt hgt
      · exact le_trans (hb y hy2) (le_of_lt hgt)

/-- The deepest-first sort is sorted: depths are non-increasing. -/
theorem sortDepthDesc_pairwise (l : List (List String)) :
    (sortDepthDesc l).Pairwise (fun a b => b.length ≤ a.length) := by
  unfold sortDepthDesc
  suffices h : ∀ acc, acc.Pairwise (fun a b => b.length ≤ a.length) →
      (l.foldl (fun acc a => insertDepthDesc a acc) acc).Pairwise
        (fun a b => b.length ≤ a.length) by
    exact h [] (by simp)
  induction l with
  | nil => intro acc hacc; simpa using hacc
  | cons x l ih =>
    intro acc hacc
    simp only [List.foldl_cons]
    exact ih _ (pairwise_insertDepthDesc x acc hacc)

/-- `delStep` only appends to `deleted`. -/
theorem delStep_deleted_mono (fails : List String → Option String)
    (s : DelState) (p x : List String) (h : x ∈ s.deleted) :
    x ∈ (delStep fails s p).deleted := by
  unfold delStep
  split
  · cases fails p <;> simp [h]
  · exact h

/-- `delStep` only appends to `errors`. -/
theorem delStep_errors_mono (fails : List String → Option String)
    (s : DelState) (p x : List String) (msg : String)
    (h : (x, msg) ∈ s.errors) : (x, msg) ∈ (delStep fails s p).errors := by
  unfold delStep
  split
  · cases fails p <;> simp [h]
  · exact h

theorem delFold_deleted_mono (fails : List String → Option String) :
    ∀ (l : List (List String)) (s : DelState) (x : List String),
      x ∈ s.deleted → x ∈ (l.foldl (delStep fails) s).deleted := by
  intro l
  induction l with
  | nil => intro s x h; exact h
  | cons p rest ih =>
    intro s x h
    exact ih _ x (delStep_deleted_mono fails s p x h)

theorem delFold_errors_mono (fails : List String → Option String) :
    ∀ (l : List (List String)) (s : DelState) (x : List String) (msg : String),
      (x, msg) ∈ s.errors → (x, msg) ∈ (l.foldl (delStep fails) s).errors := by
  intro l
  induction l with
  | nil => intro s x msg h; exact h
  | cons p rest ih =>
    intro s x msg h
    exact ih _ x msg (delStep_errors_mono fails s p x msg h)

/-- Provenance of a deletion: every path in the final `deleted` list was
either already deleted, or was re-verified empty against the file
system current at its turn (and its removal did not fail). -/
theorem delFold_deleted_src (fails : List String → Option String) :
    ∀ (l : List (List String)) (s : DelState) (x : List String),
      x ∈ (l.foldl (delStep fails) s).deleted →
      x ∈ s.deleted ∨
      ∃ l1 l2, l = l1 ++ x :: l2 ∧
        isDirectoryEmpty ((l1.foldl (delStep fails) s).fs) x = true ∧
        fails x = none := by
  intro l
  induction l with
  | nil => intro s x h; exact Or.inl h
  | cons p rest ih =>
    intro s x h
    rcases ih (delStep fails s p) x h with hin | ⟨l1, l2, rfl, hemp, hfl⟩
    · by_cases hde : isDirectoryEmpty s.fs p = true
      · cases hfp : fails p with
        | some msg =>
          rw [show delStep fails s p = { s with errors := s.errors ++ [(p, msg)] }
            from by unfold delStep; rw [if_pos hde, hfp]] at hin
          exact Or.inl hin
        | none =>
          rw [show delStep fails s p =
              { s with fs := removeAt s.fs p, deleted := s.deleted ++ [p] }
            from by unfold delStep; rw [if_pos hde, hfp]] at hin
          simp only [List.mem_append, List.mem_singleton] at hin
          rcases hin with hin | rfl
          · exact Or.inl hin
          · exact Or.inr ⟨[], rest, rfl, by simpa using hde, hfp⟩
      · rw [show delStep fails s p = s from by
          unfold delStep; rw [if_neg hde]] at hin
        exact Or.inl hin
    · exact Or.inr ⟨p :: l1, l2, rfl, hemp, hfl⟩

/-- Provenance of an error: every entry in the final `errors` list
arose from a path that was re-verified empty at its turn and whose
removal then failed with exactly that message. -/
theorem delFold_errors_src (fails : List String → Option String) :
    ∀ (l : List (List String)) (s : DelState) (x : List String) (msg : String),
      (x, msg) ∈ (l.foldl (delStep fails) s).errors →
      (x, msg) ∈ s.errors ∨
      ∃ l1 l2, l = l1 ++ x :: l2 ∧
        isDirectoryEmpty ((l1.foldl (delStep fails) s).fs) x = true ∧
        fails x = some msg := by
  intro l
  induction l with
  | nil => intro s x msg h; exact Or.inl h
  | cons p rest ih =>
    intro s x msg h
    rcases ih (delStep fails s p) x msg h with hin | ⟨l1, l2, rfl, hemp, hfl⟩
    · by_cases hde : isDirectoryEmpty s.fs p = true
      · cases hfp : fails p with
        | some m =>
          rw [show delStep fails s p = { s with errors := s.errors ++ [(p, m)] }
            from by unfold delStep; rw [if_pos hde, hfp]] at hin
          simp only [List.mem_append, List.mem_singleton] at hin
          rcases hin with hin | heq
          · exact Or.inl hin
          · obtain ⟨rfl, rfl⟩ : x = p ∧ msg = m := by
              exact ⟨congrArg Prod.fst heq, congrArg Prod.snd heq⟩
            exact Or.inr ⟨[], rest, rfl, by simpa using hde, hfp⟩
        | none =>
          rw [show delStep fails s p =
              { s with fs := removeAt s.fs p, deleted := s.deleted ++ [p] }
            from by unfold delStep; rw [if_pos hde, hfp]] at hin
          exact Or.inl hin
      · rw [show delStep fails s p = s from by
          unfold delStep; rw [if_neg hde]] at hin
        exact Or.inl hin
    · exact Or.inr ⟨p :: l1, l2, rfl, hemp, hfl⟩

/-- Completeness of the loop: every path of the processed list ends up
deleted, or recorded as an error, or was found non-empty at its turn —
no earlier failure can prevent a later path from being processed. -/
theorem delFold_covers (fails : List String → Option String) :
    ∀ (l : List (List String)) (s : DelState) (x : List String),
      x ∈ l →
      x ∈ (l.foldl (delStep fails) s).deleted ∨
      (∃ msg, (x, msg) ∈ (l.foldl (delStep fails) s).errors) ∨
      ∃ l1 l2, l = l1 ++ x :: l2 ∧
        isDirectoryEmpty ((l1.foldl (delStep fails) s).fs) x = false := by
  intro l
  induction l with
  | nil => intro s x h; simp at h
  | cons p rest ih =>
    intro s x h
    rcases List.mem_cons.mp h with rfl | hrest
    · by_cases hde : isDirectoryEmpty s.fs x = true
      · cases hfp : fails x with
        | some msg =>
          have hstep : delStep fails s x = { s with errors := s.errors ++ [(x, msg)] } := by
            unfold delStep; rw [if_pos hde, hfp]
          refine Or.inr (Or.inl ⟨msg, ?_⟩)
          simp only [List.foldl_cons, hstep]
          exact delFold_errors_mono fails rest _ x msg (by simp)
        | none =>
          have hstep : delStep fails s x =
              { s with fs := removeAt s.fs x, deleted := s.deleted ++ [x] } := by
            unfold delStep; rw [if_pos hde, hfp]
          refine Or.inl ?_
          simp only [List.foldl_cons, hstep]
          exact delFold_deleted_mono fails rest _ x (by simp)
      · refine Or.inr (Or.inr ⟨[], rest, rfl, ?_⟩)
        simpa using (Bool.not_eq_true _).mp hde
    · rcases ih (delStep fails s p) x hrest with h1 | h2 | ⟨l1, l2, rfl, hne⟩
      · exact Or.inl h1
      · exact Or.inr (Or.inl h2)
      · exact Or.inr (Or.inr ⟨p :: l1, l2, rfl, hne⟩)

/-- C7: `deleteEmptyFolders` processes the input as a deepest-first
permutation (so a parent, being a proper prefix and hence strictly
shallower, is only attempted after every deeper flagged child);
every deleted directory was re-verified still transitively empty
against the file system current immediately before its removal; and
every processed directory ends up deleted, or collected in the error
list, or skipped because the re-check failed — a removal failure never
aborts the batch. -/
theorem claim_C7_deepest_first_reverify_resilient
    (fails : List String → Option String) (ps : List (List String))
    (fs : List (String × FSTree)) :
    List.Perm (sortDepthDesc ps) ps ∧
    (sortDepthDesc ps).Pairwise (fun a b => b.length ≤ a.length) ∧
    (∀ (l1 l2 : List (List String)) (p q : List String),
      sortDepthDesc ps = l1 ++ p :: l2 → q ∈ l2 →
      ¬∃ r : List String, r ≠ [] ∧ q = p ++ r) ∧
    (∀ p : List String, p ∈ (deleteEmptyFolders fails ps fs).deleted →
      ∃ l1 l2, sortDepthDesc ps = l1 ++ p :: l2 ∧
        isDirectoryEmpty ((l1.foldl (delStep fails) ⟨fs, [], []⟩).fs) p = true ∧
        fails p = none) ∧
    (∀ p : List String, p ∈ sortDepthDesc ps →
      p ∈ (deleteEmptyFolders fails ps fs).deleted ∨
      (∃ msg, (p, msg) ∈ (deleteEmptyFolders fails ps fs).errors) ∨
      ∃ l1 l2, sortDepthDesc ps = l1 ++ p :: l2 ∧
        isDirectoryEmpty ((l1.foldl (delStep fails) ⟨fs, [], []⟩).fs) p = false) := by
  refine ⟨sortDepthDesc_perm ps, sortDepthDesc_pairwise ps, ?_, ?_, ?_⟩
  · intro l1 l2 p q hsplit hq
    rintro ⟨r, hr, rfl⟩
    have hpw := sortDepthDesc_pairwise ps
    rw [hsplit] at hpw
    have hcons : ((p :: l2).Pairwise (fun a b => b.length ≤ a.length)) :=
      hpw.sublist (List.sublist_append_right l1 (p :: l2))
    have hle := (List.pairwise_cons.mp hcons).1 _ hq
    rw [List.length_append] at hle
    have hrpos : 0 < r.length := List.length_pos.mpr hr
    omega
  · intro p hp
    rcases delFold_deleted_src fails (sortDepthDesc ps) ⟨fs, [], []⟩ p hp with
      hin | ⟨l1, l2, hsp, hemp, hfl⟩
    · simp at hin
    · exact ⟨l1, l2, hsp, hemp, hfl⟩
  · intro p hp
    exact delFold_covers fails (sortDepthDesc ps) ⟨fs, [], []⟩ p hp

/-- Witness for C7: a single empty directory `a` is re-verified and
deleted. -/
theorem claim_C7_deepest_first_reverify_resilient_witness :
    ∃ l1 l2, sortDepthDesc [[("a" : String)]] = l1 ++ [("a" : String)] :: l2 ∧
      isDirectoryEmpty ((l1.foldl (delStep (fun _ => none))
        ⟨[(("a" : String), FSTree.dir [])], [], []⟩).fs) [("a" : String)] = true ∧
      (fun _ : List String => (none : Option String)) [("a" : String)] = none :=
  (claim_C7_deepest_first_reverify_resilient (fun _ => none) [["a"]]
      [("a", FSTree.dir [])]).2.2.2.1 ["a"]
    (by
      simp [deleteEmptyFolders, sortDepthDesc, insertDepthDesc, delStep,
        isDirectoryEmpty, dirEntriesAt, mapLookup, hasFilesList])

/-- C10: a directory that fails the pre-delete emptiness re-check at
its turn (for every occurrence in the processing order) is skipped
silently — it appears in neither the `deleted` nor the `errors` list —
and consequently the two returned lists need not cover the input set,
as the concrete non-empty input `a` shows. -/
theorem claim_C10_failed_recheck_is_silent :
    (∀ (fails : List String → Option String) (ps : List (List String))
        (fs : List (String × FSTree)) (p : List String),
      (∀ l1 l2, sortDepthDesc ps = l1 ++ p :: l2 →
        isDirectoryEmpty ((l1.foldl (delStep fails) ⟨fs, [], []⟩).fs) p = false) →
      p ∉ (deleteEmptyFolders fails ps fs).deleted ∧
      ∀ msg, (p, msg) ∉ (deleteEmptyFolders fails ps fs).errors) ∧
    (deleteEmptyFolders (fun _ => none) [[("a" : String)]]
        [(("a" : String), FSTree.dir [(("f" : String), FSTree.file)])]).deleted = [] ∧
    (deleteEmptyFolders (fun _ => none) [[("a" : String)]]
        [(("a" : String), FSTree.dir [(("f" : String), FSTree.file)])]).errors = [] := by
  refine ⟨?_, ?_, ?_⟩
  · intro fails ps fs p hnever
    constructor
    · intro hdel
      rcases delFold_deleted_src fails (sortDepthDesc ps) ⟨fs, [], []⟩ p hdel with
        hin | ⟨l1, l2, hsp, hemp, -⟩
      · simp at hin
      · rw [hnever l1 l2 hsp] at hemp
        exact Bool.false_ne_true hemp
    · intro msg herr
      rcases delFold_errors_src fails (sortDepthDesc ps) ⟨fs, [], []⟩ p msg herr with
        hin | ⟨l1, l2, hsp, hemp, -⟩
      · simp at hin
      · rw [hnever l1 l2 hsp] at hemp
        exact Bool.false_ne_true hemp
  · simp [deleteEmptyFolders, sortDepthDesc, insertDepthDesc, delStep,
      isDirectoryEmpty, dirEntriesAt, mapLookup, hasFilesList]
  · simp [deleteEmptyFolders, sortDepthDesc, insertDepthDesc, delStep,
      isDirectoryEmpty, dirEntriesAt, mapLookup, hasFilesList]

/-- Witness for C10: the directory `a` contains a file, so it fails the
re-check at its only turn and lands in neither returned list. -/
theorem claim_C10_failed_recheck_is_silent_witness :
    [("a" : String)] ∉ (deleteEmptyFolders (fun _ => none) [[("a" : String)]]
        [(("a" : String), FSTree.dir [(("f" : String), FSTree.file)])]).deleted ∧
    ∀ msg, ([("a" : String)], msg) ∉ (deleteEmptyFolders (fun _ => none)
        [[("a" : String)]]
        [(("a" : String), FSTree.dir [(("f" : String), FSTree.file)])]).errors :=
  claim_C10_failed_recheck_is_silent.1 (fun _ => none) [["a"]]
    [("a", FSTree.dir [("f", FSTree.file)])] ["a"]
    (by
      intro l1 l2 h
      have hl : sortDepthDesc [[("a" : String)]] = [[("a" : String)]] := rfl
      rw [hl] at h
      cases l1 with
      | nil =>
        simp only [List.nil_append, List.cons.injEq] at h
        obtain ⟨-, rfl⟩ := h
        simp [isDirectoryEmpty, dirEntriesAt, mapLookup, hasFilesList]
      | cons y ys =>
        simp at h)

/-! ## C5: idempotence of `scan` on an unchanged file system -/

/-- `hasKey` is membership of the key list. -/
theorem hasKey_iff_mem {α : Type} (l : List (String × α)) (j : String) :
    hasKey l j = true ↔ j ∈ l.map Prod.fst := by
  induction l with
  | nil => simp [hasKey]
  | cons e rest ih =>
    simp [hasKey, ih, beq_iff_eq]
    tauto

/-- Lookup ignores entries removed by a different-key filter. -/
theorem mapLookup_filter_ne {α : Type} (k j : String) (hne : j ≠ k) :
    ∀ d : List (String × α),
      mapLookup (d.filter fun e => !(e.1 == k)) j = mapLookup d j := by
  intro d
  induction d with
  | nil => rfl
  | cons e rest ih =>
    by_cases hek : e.1 = k
    · have h1 : (!(e.1 == k)) = false := by simp [hek]
      have h2 : (e.1 == j) = false := by
        simp [hek]
        exact fun h => hne h.symm
      simp only [List.filter_cons, h1, if_neg (by simp : ¬(false = true))]
      rw [ih]
      simp only [mapLookup, h2]
      rw [if_neg (by simp : ¬(false = true))]
    · have h1 : (!(e.1 == k)) = true := by simp [hek]
      simp only [List.filter_cons, h1, if_pos rfl]
      simp only [mapLookup]
      split
      · rfl
      · exact ih

/-- Mapping a key-preserving function does not change the key list. -/
theorem map_fst_of_preserve {α β : Type} (f : String × α → String × β)
    (hf : ∀ e, (f e).1 = e.1) :
    ∀ l : List (String × α), (l.map f).map Prod.fst = l.map Prod.fst := by
  intro l
  induction l with
  | nil => rfl
  | cons e rest ih => simp only [List.map_cons, ih, hf e]

/-- `hasKey` only depends on the key list. -/
theorem hasKey_eq_of_keys {α β : Type} (l : List (String × α))
    (l2 : List (String × β)) (j : String)
    (h : l.map Prod.fst = l2.map Prod.fst) : hasKey l j = hasKey l2 j := by
  cases hk : hasKey l j
  · cases hk2 : hasKey l2 j
    · rfl
    · exfalso
      have hm := (hasKey_iff_mem l2 j).mp hk2
      rw [← h] at hm
      have hcontra := (hasKey_iff_mem l j).mpr hm
      rw [hk] at hcontra
      exact Bool.false_ne_true hcontra
  · have hm := (hasKey_iff_mem l j).mp hk
    rw [h] at hm
    exact ((hasKey_iff_mem l2 j).mpr hm).symm
theorem mapLookup_cons_eq {α : Type} (k j : String) (v : α)
    (t : List (String × α)) (h : (k == j) = true) :
    mapLookup ((k, v) :: t) j = some v := by
  simp only [mapLookup]
  rw [if_pos h]

theorem mapLookup_cons_ne {α : Type} (k j : String) (v : α)
    (t : List (String × α)) (h : (k == j) = false) :
    mapLookup ((k, v) :: t) j = mapLookup t j := by
  simp only [mapLookup]
  rw [if_neg (by rw [h]; exact Bool.false_ne_true)]

theorem hasKey_cons {α : Type} (e : String × α) (t : List (String × α))
    (j : String) : hasKey (e :: t) j = (e.1 == j || hasKey t j) := rfl

/-- Overwrite-merge of two insertion-ordered maps: `mergeD m d` takes
the entries of `m` in order with values overwritten from `d` where
present, followed by the entries of `d` with fresh keys.  `discoverServerActions`
starting from `m` equals `mergeD m` of discovery from scratch. -/
def mergeD (m d : SAMap) : SAMap :=
  m.map (fun e => (e.1, (mapLookup d e.1).getD e.2)) ++
    d.filter (fun e => !hasKey m e.1)

theorem mergeD_nil (m : SAMap) : mergeD m [] = m := by
  simp [mergeD, mapLookup]

theorem mergeD_single (k : String) (v : ActionData) (d : SAMap) :
    mergeD [(k, v)] d =
      (k, (mapLookup d k).getD v) :: d.filter (fun e => !(e.1 == k)) := by
  unfold mergeD
  simp only [List.map_cons, List.map_nil, List.cons_append, List.nil_append]
  congr 1
  apply List.filter_congr
  intro e _
  by_cases hek : e.1 = k
  · have h1 : (e.1 == k) = true := beq_iff_eq.mpr hek
    have h2 : (k == e.1) = true := beq_iff_eq.mpr hek.symm
    simp [hasKey, h1, h2]
  · have h1 : (e.1 == k) = false := by simp [hek]
    have h2 : (k == e.1) = false := by
      simp only [beq_eq_false_iff_ne, ne_eq]
      exact fun h => hek h.symm
    simp [hasKey, h1, h2]

/-- The key step for idempotence: setting a key and then merging a
discovery result from scratch equals merging the discovery result
extended at that key. -/
theorem mergeD_mapSet (m : SAMap) (k : String) (v : ActionData) (d : SAMap) :
    mergeD (mapSet m k v) d = mergeD m (mergeD [(k, v)] d) := by
  rw [mergeD_single]
  by_cases hK : hasKey m k = true
  · have hset : mapSet m k v = m.map (fun e => if e.1 == k then (k, v) else e) := by
      unfold mapSet
      rw [if_pos hK]
    have hfstp : ∀ e : String × ActionData,
        (if e.1 == k then (k, v) else e).1 = e.1 := by
      intro e
      by_cases hek : e.1 = k
      · rw [if_pos (beq_iff_eq.mpr hek)]
        exact hek.symm
      · rw [if_neg (by simp [hek])]
    have hkeys := map_fst_of_preserve _ hfstp m
    rw [hset]
    unfold mergeD
    rw [List.map_map]
    have hfilt : List.filter (fun e => !hasKey m e.1)
        ((k, (mapLookup d k).getD v) :: d.filter (fun e => !(e.1 == k))) =
        (d.filter (fun e => !(e.1 == k))).filter (fun e => !hasKey m e.1) := by
      rw [List.filter_cons, if_neg (by
        show ¬(!hasKey m k) = true
        rw [hK]
        simp)]
    rw [hfilt, List.filter_filter]
    congr 1
    · apply List.map_congr_left
      intro e _
      simp only [Function.comp_apply]
      by_cases hek : e.1 = k
      · have hb : (e.1 == k) = true := beq_iff_eq.mpr hek
        have hb2 : (k == e.1) = true := beq_iff_eq.mpr hek.symm
        rw [if_pos hb, mapLookup_cons_eq _ _ _ _ hb2, Option.getD_some, hek]
      · have hb : (e.1 == k) = false := by simp [hek]
        have hb2 : (k == e.1) = false := by
          simp only [beq_eq_false_iff_ne, ne_eq]
          exact fun h => hek h.symm
        rw [if_neg (by rw [hb]; exact Bool.false_ne_true)]
        rw [mapLookup_cons_ne _ _ _ _ hb2, mapLookup_filter_ne k e.1 hek d]
    · apply List.filter_congr
      intro e _
      rw [hasKey_eq_of_keys _ m e.1 hkeys]
      by_cases hek : e.1 = k
      · have h2 : hasKey m e.1 = true := by rw [hek]; exact hK
        rw [h2]
        simp
      · have hb : (e.1 == k) = false := by simp [hek]
        rw [hb]
        simp
  · have hKf : hasKey m k = false := by
      cases hx : hasKey m k
      · rfl
      · exact absurd hx hK
    have hset : mapSet m k v = m ++ [(k, v)] := by
      unfold mapSet
      rw [if_neg hK]
    rw [hset]
    unfold mergeD
    rw [List.map_append]
    simp only [List.map_cons, List.map_nil]
    have hfilt : List.filter (fun e => !hasKey m e.1)
        ((k, (mapLookup d k).getD v) :: d.filter (fun e => !(e.1 == k))) =
        (k, (mapLookup d k).getD v) ::
          (d.filter (fun e => !(e.1 == k))).filter (fun e => !hasKey m e.1) := by
      rw [List.filter_cons, if_pos (show (!hasKey m k) = true by rw [hKf]; rfl)]
    rw [hfilt, List.filter_filter, List.append_assoc]
    congr 1
    · apply List.map_congr_left
      intro e he
      have hek : e.1 ≠ k := by
        intro hcontra
        have hmem : k ∈ m.map Prod.fst := by
          rw [← hcontra]
          exact List.mem_map_of_mem Prod.fst he
        have hcc := (hasKey_iff_mem m k).mpr hmem
        rw [hKf] at hcc
        exact Bool.false_ne_true hcc
      have hb2 : (k == e.1) = false := by
        simp only [beq_eq_false_iff_ne, ne_eq]
        exact fun h => hek h.symm
      rw [mapLookup_cons_ne _ _ _ _ hb2, mapLookup_filter_ne k e.1 hek d]
    · rw [List.singleton_append]
      congr 1
      apply List.filter_congr
      intro e _
      rw [hasKey_append, hasKey_cons]
      show (!(hasKey m e.1 || (k == e.1 || hasKey ([] : SAMap) e.1))) =
        (!hasKey m e.1 && !(e.1 == k))
      by_cases hek : e.1 = k
      · have hb : (e.1 == k) = true := beq_iff_eq.mpr hek
        have hb2 : (k == e.1) = true := beq_iff_eq.mpr hek.symm
        rw [hb, hb2]
        simp [hasKey]
      · have hb : (e.1 == k) = false := by simp [hek]
        have hb2 : (k == e.1) = false := by
          simp only [beq_eq_false_iff_ne, ne_eq]
          exact fun h => hek h.symm
        rw [hb, hb2]
        simp [hasKey]

/-- Each discovery step is either a no-op (parse failure, or no truthy
`exec`/`steps`) or a `mapSet` at a key and value determined by the file
alone. -/
theorem discStep_cases (f : DiscFile) :
    (∀ m : SAMap, discStep m f = m) ∨
    ∃ k v, ∀ m : SAMap, discStep m f = mapSet m k v := by
  cases hp : f.parsed with
  | none => exact Or.inl (fun m => by simp [discStep, hp])
  | some c =>
    by_cases hc : (truthyOpt (getField c "exec")
        || truthyOpt (getField c "steps")) = true
    · refine Or.inr ⟨filePathToUrl f.relativePath,
        ⟨f.relativePath, f.relativePath, c, []⟩, fun m => ?_⟩
      simp only [discStep, hp]
      rw [if_pos hc]
    · refine Or.inl (fun m => ?_)
      simp only [discStep, hp]
      rw [if_neg hc]

/-- `mapSet` on the empty map is a singleton. -/
theorem mapSet_nil {α : Type} (k : String) (v : α) :
    mapSet ([] : List (String × α)) k v = [(k, v)] := by
  simp [mapSet, hasKey]

/-- Discovery from an arbitrary starting map is the overwrite-merge of
the starting map with discovery from scratch. -/
theorem discover_decompose (files : List DiscFile) :
    ∀ m : SAMap,
      discoverServerActions m files =
        mergeD m (discoverServerActions [] files) := by
  induction files with
  | nil =>
    intro m
    simp only [discoverServerActions, List.foldl_nil]
    exact (mergeD_nil m).symm
  | cons f rest ih =>
    intro m
    simp only [discoverServerActions, List.foldl_cons] at ih ⊢
    rcases discStep_cases f with hid | ⟨k, v, hset⟩
    · rw [hid m, hid []]
      exact ih m
    · rw [hset m, hset [], mapSet_nil, ih (mapSet m k v), ih [(k, v)]]
      exact mergeD_mapSet m k v _

/-- When the two maps have the same key list and the second has no
duplicate keys, the overwrite-merge is the second map. -/
theorem mergeD_self :
    ∀ m d : SAMap, m.map Prod.fst = d.map Prod.fst →
      (d.map Prod.fst).Nodup → mergeD m d = d := by
  intro m
  induction m with
  | nil =>
    intro d hkeys _
    have hd : d = [] := by
      cases d with
      | nil => rfl
      | cons e t => simp at hkeys
    subst hd
    rfl
  | cons e m2 ih =>
    intro d hkeys hnd
    cases d with
    | nil => simp at hkeys
    | cons x d2 =>
      obtain ⟨x1, x2⟩ := x
      obtain ⟨e1, ev⟩ := e
      simp only [List.map_cons, List.cons.injEq] at hkeys
      obtain ⟨hek, hkeys2⟩ := hkeys
      rw [List.map_cons, List.nodup_cons] at hnd
      obtain ⟨hx0, hnd2⟩ := hnd
      have hx : x1 ∉ List.map Prod.fst d2 := hx0
      unfold mergeD
      simp only [List.map_cons, List.cons_append]
      have hb : (x1 == e1) = true := beq_iff_eq.mpr hek.symm
      congr 1
      · rw [mapLookup_cons_eq x1 e1 x2 d2 hb, Option.getD_some, hek]
      · have hmaps : List.map
            (fun e2 => (e2.1, (mapLookup ((x1, x2) :: d2) e2.1).getD e2.2)) m2 =
            List.map (fun e2 => (e2.1, (mapLookup d2 e2.1).getD e2.2)) m2 := by
          apply List.map_congr_left
          intro e2 he2
          have he2x : (x1 == e2.1) = false := by
            simp only [beq_eq_false_iff_ne, ne_eq]
            intro hcontra
            apply hx
            rw [hcontra, ← hkeys2]
            exact List.mem_map_of_mem Prod.fst he2
          rw [mapLookup_cons_ne x1 e2.1 x2 d2 he2x]
        have hfilt : List.filter (fun e2 => !hasKey ((e1, ev) :: m2) e2.1)
            ((x1, x2) :: d2) =
            List.filter (fun e2 => !hasKey m2 e2.1) d2 := by
          rw [List.filter_cons]
          rw [if_neg (by
            show ¬(!hasKey ((e1, ev) :: m2) x1) = true
            rw [hasKey_cons]
            have hbe : (((e1, ev) : String × ActionData).1 == x1) = true :=
              beq_iff_eq.mpr hek
            rw [hbe]
            simp)]
          apply List.filter_congr
          intro e2 he2
          rw [hasKey_cons]
          have hbx : (((e1, ev) : String × ActionData).1 == e2.1) = false := by
            show (e1 == e2.1) = false
            simp only [beq_eq_false_iff_ne, ne_eq]
            intro hcontra
            apply hx
            rw [← hek, hcontra]
            exact List.mem_map_of_mem Prod.fst he2
          rw [hbx]
          simp
        rw [hmaps, hfilt]
        exact ih d2 hkeys2 hnd2

theorem mapSet_keys_nodup {α : Type} (m : List (String × α)) (k : String)
    (v : α) (h : (m.map Prod.fst).Nodup) :
    ((mapSet m k v).map Prod.fst).Nodup := by
  unfold mapSet
  split
  · rw [map_fst_of_preserve]
    · exact h
    · intro e
      by_cases hek : e.1 = k
      · rw [if_pos (beq_iff_eq.mpr hek)]
        exact hek.symm
      · rw [if_neg (by simp [hek])]
  · rename_i hk
    have hkf : hasKey m k = false := by
      cases hx : hasKey m k
      · rfl
      · exact absurd hx hk
    have hnotmem : k ∉ m.map Prod.fst := by
      intro hmem
      have hcc := (hasKey_iff_mem m k).mpr hmem
      rw [hkf] at hcc
      exact Bool.false_ne_true hcc
    rw [List.map_append]
    simp only [List.map_cons, List.map_nil]
    rw [List.nodup_append]
    refine ⟨h, List.nodup_singleton k, ?_⟩
    intro a ha hb
    simp only [List.mem_singleton] at hb
    subst hb
    exact hnotmem ha

/-- Discovery from scratch produces a map without duplicate keys. -/
theorem discover_keys_nodup (files : List DiscFile) :
    ((discoverServerActions [] files).map Prod.fst).Nodup := by
  have key : ∀ m : SAMap, (m.map Prod.fst).Nodup →
      ((discoverServerActions m files).map Prod.fst).Nodup := by
    induction files with
    | nil => intro m hm; exact hm
    | cons f rest ih =>
      intro m hm
      simp only [discoverServerActions, List.foldl_cons] at *
      rcases discStep_cases f with hid | ⟨k, v, hset⟩
      · rw [hid m]
        exact ih m hm
      · rw [hset m]
        exact ih _ (mapSet_keys_nodup m k v hm)
  exact key [] (by simp)

/-- The `serverActions` component of one `addReference` call (the
`references` component never feeds back into it). -/
def addRefSAStep (sa : SAMap) (rc : RefCall) : SAMap :=
  addRefSA sa (normalizeRef rc.referencedPath) (mkRef rc)

/-- Accumulating references over a whole scan only touches the
`serverActions` component through `addRefSAStep`, independently of the
auxiliary `references` map carried alongside. -/
theorem addRef_fold_serverActions (rcs : List RefCall) :
    ∀ (sa : SAMap) (refs : List (String × List Ref)),
      (List.foldl addReference ⟨sa, refs⟩ rcs).serverActions =
        List.foldl addRefSAStep sa rcs := by
  induction rcs with
  | nil => intro sa refs; rfl
  | cons rc rest ih =>
    intro sa refs
    simp only [List.foldl_cons]
    rw [show addReference ⟨sa, refs⟩ rc =
        (⟨addRefSAStep sa rc, addRefRefs refs (normalizeRef rc.referencedPath)
          (mkRef rc)⟩ : ScannerState) from rfl]
    exact ih _ _

theorem fst_addRefSA (sa : SAMap) (np : String) (r : Ref) :
    (addRefSA sa np r).map Prod.fst = sa.map Prod.fst := by
  unfold addRefSA
  split
  · apply map_fst_of_preserve
    intro e
    split
    · rfl
    · rfl
  · rfl

/-- Reference accumulation never changes the key list of the action
index. -/
theorem fst_saFold (rcs : List RefCall) :
    ∀ sa : SAMap,
      (List.foldl addRefSAStep sa rcs).map Prod.fst = sa.map Prod.fst := by
  induction rcs with
  | nil => intro sa; rfl
  | cons rc rest ih =>
    intro sa
    simp only [List.foldl_cons]
    rw [ih]
    exact fst_addRefSA sa (normalizeRef rc.referencedPath) (mkRef rc)

/-- C5: running `scan()` twice on the same `Scanner` instance with no
file-system change between the runs yields an identical result: the
second `summary` and `actions` array (ordering, reference counts
and reference lists included) equal those of the first run: discovery
overwrites every previously indexed action in place with a fresh empty
reference list before references are re-accumulated. -/
theorem claim_C5_scan_idempotent (files : List DiscFile)
    (refCalls : List RefCall) :
    (scanOnce files refCalls (scanOnce files refCalls initScanner).2).1 =
      (scanOnce files refCalls initScanner).1 := by
  simp only [scanOnce, initScanner]
  generalize hD : discoverServerActions ([] : SAMap) files = D
  have hnodup := discover_keys_nodup files
  rw [hD] at hnodup
  have h1 : ∀ refs : List (String × List Ref),
      (List.foldl addReference ⟨D, refs⟩ refCalls).serverActions =
        List.foldl addRefSAStep D refCalls :=
    fun refs => addRef_fold_serverActions refCalls D refs
  have h2 : discoverServerActions
      (List.foldl addReference ⟨D, []⟩ refCalls).serverActions files = D := by
    rw [h1, discover_decompose files, hD]
    exact mergeD_self _ D (fst_saFold refCalls D) hnodup
  rw [h2]
  rw [h1, h1]

end Wappler
